import Mathlib

/-!
Shallow embedding of the view-state aggregation pattern in
`wilburluce/ng-component-ideas`.

The program builds, in `AppComponent.ngOnInit`
(`src/src/app/app.component.ts` and `src/demo/src/app/app.component.ts`),

  viewState$ = combineLatest(selectUser(), selectTopics(), selectFriends())
                 .pipe(map(([user, topics, friends]) => (\x7buser, topics, friends\x7d)))

where the three selectors of `DataService` each return `of(<literal>)`.

We embed the rxjs `combineLatest` operator (the operator invoked by the
source, with its documented rxjs semantics) as a state machine `runCL`
driven by a finite interleaving of source events, the rxjs `of`
constructor as `ofObs`, and the `pipe(map ...)` projection as the function
argument of `runCL`.  Producer roles are the three arguments of the
`combineLatest` call: user, topics, friends.
-/

namespace NgIdeas

/-- `User` interface from `src/demo/src/app/app.component.ts`. -/
structure User where
  id : Int
  name : String
deriving DecidableEq

/-- `Topic` interface from `src/demo/src/app/app.component.ts` (only a name). -/
structure Topic where
  name : String
deriving DecidableEq

/-- `ViewStatex` interface from `src/demo/src/app/app.component.ts`:
the CompositeValue record produced by the `map` in `ngOnInit`. -/
structure ViewStatex where
  user : User
  topics : List Topic
  friends : List User
deriving DecidableEq

/-- The projection applied by `pipe(map(([user, topics, friends]) => (...)))`. -/
def mkViewStatex (u : User) (t : List Topic) (f : List User) : ViewStatex :=
  ⟨u, t, f⟩

/-- The three producer roles: the three arguments of the `combineLatest`
call in `ngOnInit`, in order. -/
inductive Role where
  | user
  | topics
  | friends
deriving DecidableEq

/-- An event a single rxjs observable can deliver to its subscriber:
a value, a fatal error, or normal completion. -/
inductive ObsEvent (σ : Type) where
  | next (v : σ)
  | error (msg : String)
  | complete
deriving DecidableEq

/-- rxjs `of(x)`: emits `x` once, then completes. -/
def ofObs (x : σ) : List (ObsEvent σ) :=
  [ObsEvent.next x, ObsEvent.complete]

/-- `DataService.selectUser` from the demo: `of(\x7bid: 1, name: 'Mark'\x7d)`. -/
def DataService.selectUser : List (ObsEvent User) :=
  ofObs ⟨1, "Mark"⟩

/-- `DataService.selectTopics` from the demo: `of([...6 topics...])`. -/
def DataService.selectTopics : List (ObsEvent (List Topic)) :=
  ofObs [⟨"rxjs"⟩, ⟨"ngrx"⟩, ⟨"components"⟩, ⟨"router"⟩, ⟨"cli"⟩, ⟨"testing"⟩]

/-- `DataService.selectFriends` from the demo:
`of([\x7bid: 2, name: 'Fred'\x7d, \x7bid: 3, name: 'Chuck'\x7d])`. -/
def DataService.selectFriends : List (ObsEvent (List User)) :=
  ofObs [⟨2, "Fred"⟩, ⟨3, "Chuck"⟩]

/-- An event delivered to the `combineLatest` aggregator by one of its three
sources (role-tagged): an emission from one source, a fatal error from a
source, or a source's normal completion. -/
inductive SrcEvent (α β γ : Type) where
  | nextA (a : α)
  | nextB (b : β)
  | nextC (c : γ)
  | err (r : Role) (msg : String)
  | done (r : Role)
deriving DecidableEq

/-- Internal state of `combineLatest`: the latest value seen from each
source (none before its first emission) and each source's completion flag. -/
structure CLState (α β γ : Type) where
  la : Option α
  lb : Option β
  lc : Option γ
  da : Bool
  db : Bool
  dc : Bool
deriving DecidableEq

/-- The state of `combineLatest` at subscription time: nothing seen yet. -/
def CLState.start : CLState α β γ :=
  ⟨none, none, none, false, false, false⟩

/-- An event the aggregated output stream delivers to its subscriber. -/
inductive OutEvent (δ : Type) where
  | next (v : δ)
  | error (msg : String)
  | complete
deriving DecidableEq

/-- Whether the source of role `r` has not yet emitted in state `s`. -/
def latestMissing (s : CLState α β γ) : Role → Bool
  | Role.user => s.la.isNone
  | Role.topics => s.lb.isNone
  | Role.friends => s.lc.isNone

/-- Record that the source of role `r` has completed. -/
def markDone (s : CLState α β γ) : Role → CLState α β γ
  | Role.user => { s with da := true }
  | Role.topics => { s with db := true }
  | Role.friends => { s with dc := true }

/-- The effect of a source emission on the latest-value snapshot
(error/completion events do not change the snapshot). -/
def applyNext (s : CLState α β γ) : SrcEvent α β γ → CLState α β γ
  | SrcEvent.nextA a => { s with la := some a }
  | SrcEvent.nextB b => { s with lb := some b }
  | SrcEvent.nextC c => { s with lc := some c }
  | _ => s

/-- rxjs `combineLatest(a$, b$, c$).pipe(map f)` as invoked in `ngOnInit`,
run over a finite interleaving of source events: on each source emission
the latest value for that role is updated and, once every role has a
latest value, a fresh composite `f a b c` is emitted; a source error is
propagated unmodified and terminates the output; a source completion
completes the output immediately if that source never emitted, or when
all sources have completed. -/
def runCL (f : α → β → γ → δ) : CLState α β γ → List (SrcEvent α β γ) → List (OutEvent δ)
  | _, [] => []
  | s, SrcEvent.nextA a :: rest =>
    match s.lb, s.lc with
    | some b, some c => OutEvent.next (f a b c) :: runCL f { s with la := some a } rest
    | _, _ => runCL f { s with la := some a } rest
  | s, SrcEvent.nextB b :: rest =>
    match s.la, s.lc with
    | some a, some c => OutEvent.next (f a b c) :: runCL f { s with lb := some b } rest
    | _, _ => runCL f { s with lb := some b } rest
  | s, SrcEvent.nextC c :: rest =>
    match s.la, s.lb with
    | some a, some b => OutEvent.next (f a b c) :: runCL f { s with lc := some c } rest
    | _, _ => runCL f { s with lc := some c } rest
  | _, SrcEvent.err _ msg :: _ => [OutEvent.error msg]
  | s, SrcEvent.done r :: rest =>
    if latestMissing s r then [OutEvent.complete]
    else
      let s' := markDone s r
      if s'.da && s'.db && s'.dc then [OutEvent.complete]
      else runCL f s' rest

/-- Tag the user source's events with its role. -/
def tagA : ObsEvent α → SrcEvent α β γ
  | ObsEvent.next a => SrcEvent.nextA a
  | ObsEvent.error m => SrcEvent.err Role.user m
  | ObsEvent.complete => SrcEvent.done Role.user

/-- Tag the topics source's events with its role. -/
def tagB : ObsEvent β → SrcEvent α β γ
  | ObsEvent.next b => SrcEvent.nextB b
  | ObsEvent.error m => SrcEvent.err Role.topics m
  | ObsEvent.complete => SrcEvent.done Role.topics

/-- Tag the friends source's events with its role. -/
def tagC : ObsEvent γ → SrcEvent α β γ
  | ObsEvent.next c => SrcEvent.nextC c
  | ObsEvent.error m => SrcEvent.err Role.friends m
  | ObsEvent.complete => SrcEvent.done Role.friends

/-- The interleaving delivered to `combineLatest` when it subscribes to
three synchronous sources in argument order (rxjs subscribes to each
argument in turn; a synchronous source delivers all its events during
its own subscription). -/
def seqTrace (oa : List (ObsEvent α)) (ob : List (ObsEvent β))
    (oc : List (ObsEvent γ)) : List (SrcEvent α β γ) :=
  oa.map tagA ++ ob.map tagB ++ oc.map tagC

/-- The event sequence each subscriber of the demo's `viewState$` observes:
`combineLatest(selectUser(), selectTopics(), selectFriends())` piped
through the `map` into a `ViewStatex`. -/
def viewStateRun : List (OutEvent ViewStatex) :=
  runCL mkViewStatex CLState.start
    (seqTrace DataService.selectUser DataService.selectTopics DataService.selectFriends)

/-- The demo data as a composite record: the single `ViewStatex` the demo
pipeline produces. -/
def demoComposite : ViewStatex :=
  ⟨⟨1, "Mark"⟩,
   [⟨"rxjs"⟩, ⟨"ngrx"⟩, ⟨"components"⟩, ⟨"router"⟩, ⟨"cli"⟩, ⟨"testing"⟩],
   [⟨2, "Fred"⟩, ⟨3, "Chuck"⟩]⟩

/-- The three demo emissions as bare source events (one per role). -/
def demoNexts : List (SrcEvent User (List Topic) (List User)) :=
  [SrcEvent.nextA demoComposite.user,
   SrcEvent.nextB demoComposite.topics,
   SrcEvent.nextC demoComposite.friends]

/-- Claim C9: every subscription to the demo's aggregated stream observes
exactly one CompositeValue — the demo record — followed by normal
completion of the stream. -/
theorem demo_emits_once_then_completes :
    viewStateRun = [OutEvent.next demoComposite, OutEvent.complete] := by
  decide

/-- A subscription to the demo's `viewState$`, indexed by an arbitrary
subscriber identity.  Each call to a `DataService` selector constructs a
fresh `of(<literal>)` observable from fixed literals and the pipeline
reads no shared mutable state, so the events a subscriber observes do not
depend on which subscriber it is. -/
def subscribeViewState (_subscriber : Nat) : List (OutEvent ViewStatex) :=
  runCL mkViewStatex CLState.start
    (seqTrace DataService.selectUser DataService.selectTopics DataService.selectFriends)

/-- Claim C10: the demo aggregation is deterministic across subscriptions:
any two independent subscriptions to the component's view-state stream
observe identical value sequences. -/
theorem demo_deterministic_across_subscriptions (i j : Nat) :
    subscribeViewState i = subscribeViewState j := rfl

/-- Modelled from the spec: the subscription handle of a live aggregation.
The repository manages the subscription implicitly through the async pipe;
the spec abstracts teardown as an explicit handle that is either live or
released (closed). -/
structure SubscriptionHandle where
  closed : Bool
deriving DecidableEq

/-- Modelled from the spec: `release(subscriptionHandle)` detaches the
aggregation from all producers; afterwards the handle is closed. -/
def release (h : SubscriptionHandle) : SubscriptionHandle :=
  { h with closed := true }

/-- Modelled from the spec: delivery of aggregator output to the consumer
through a handle; a released (closed) handle observes no producer, so
nothing is delivered through it. -/
def deliver (h : SubscriptionHandle) (es : List (OutEvent δ)) : List (OutEvent δ) :=
  if h.closed then [] else es

/-- Claim C5: after `release` returns, no CompositeValue is ever delivered
to the consumer of the aggregation, whatever the producers do afterwards:
delivery through the released handle of the output the aggregator would
compute from any subsequent producer activity is empty. -/
theorem no_emission_after_release (f : α → β → γ → δ) (h : SubscriptionHandle)
    (s : CLState α β γ) (activity : List (SrcEvent α β γ)) :
    deliver (release h) (runCL f s activity) = [] := rfl

/-- Claim C7: `release` is idempotent: releasing an already-released handle
is a no-op, and consumer-observable delivery after two releases is
identical to delivery after one. -/
theorem release_idempotent (h : SubscriptionHandle) :
    release (release h) = release h
    ∧ ∀ (δ : Type) (es : List (OutEvent δ)),
        deliver (release (release h)) es = deliver (release h) es :=
  ⟨rfl, fun _ _ => rfl⟩

/-- Modelled from the spec: the derived object of the
initialize-before-render pattern (`initializeFormGroup` in the article):
a form model built from the CompositeValue's fields. -/
structure FormGroup where
  userName : String
  topicNames : List String
  friendNames : List String
deriving DecidableEq

/-- Modelled from the spec: `deriveSecondary` — the method that takes the
view data and returns the form group, computed only from the
CompositeValue's fields (a pure function: it subscribes to nothing and
reads no other state). -/
def deriveSecondary (v : ViewStatex) : FormGroup :=
  ⟨v.user.name, v.topics.map Topic.name, v.friends.map User.name⟩

/-- Claim C8: `deriveSecondary` is referentially transparent: two
applications to equal CompositeValue inputs yield equal outputs (and, as
a Lean function of the CompositeValue alone, it has no hidden
subscription side effects by construction). -/
theorem deriveSecondary_referentially_transparent (v w : ViewStatex) (h : v = w) :
    deriveSecondary v = deriveSecondary w := by
  rw [h]

/-- Witness for C8 at the demo composite. -/
theorem deriveSecondary_referentially_transparent_witness :
    deriveSecondary demoComposite = deriveSecondary demoComposite :=
  deriveSecondary_referentially_transparent demoComposite demoComposite rfl

/-- The second value the user producer emits in the spec's update
scenario. -/
def marcus : User :=
  ⟨1, "Marcus"⟩

/-- Claim C3: for every emission by a single producer from a state in which
every role has already received at least one value, the aggregator emits a
CompositeValue whose fields are the latest value of every role, not only
the role that just emitted; in particular, when the user producer emits
`marcus` after the demo's first CompositeValue, a second CompositeValue is
emitted with the updated user field and the unchanged topics and friends
fields. -/
theorem emission_after_populated_snapshot (f : α → β → γ → δ)
    (s : CLState α β γ) (a : α) (b : β) (c : γ) (a' : α) (b' : β) (c' : γ)
    (rest : List (SrcEvent α β γ))
    (ha : s.la = some a) (hb : s.lb = some b) (hc : s.lc = some c) :
    (runCL f s (SrcEvent.nextA a' :: rest)
        = OutEvent.next (f a' b c) :: runCL f { s with la := some a' } rest)
    ∧ (runCL f s (SrcEvent.nextB b' :: rest)
        = OutEvent.next (f a b' c) :: runCL f { s with lb := some b' } rest)
    ∧ (runCL f s (SrcEvent.nextC c' :: rest)
        = OutEvent.next (f a b c') :: runCL f { s with lc := some c' } rest)
    ∧ (runCL mkViewStatex CLState.start (demoNexts ++ [SrcEvent.nextA marcus])
        = [OutEvent.next demoComposite,
           OutEvent.next { demoComposite with user := marcus }]) := by
  refine ⟨?_, ?_, ?_, by decide⟩
  · simp [runCL, hb, hc]
  · simp [runCL, ha, hc]
  · simp [runCL, ha, hb]

/-- Witness for C3: the user producer emits a second value from the fully
populated demo state and the snapshot of all three roles is emitted. -/
theorem emission_after_populated_snapshot_witness :
    runCL mkViewStatex
        ⟨some demoComposite.user, some demoComposite.topics, some demoComposite.friends,
         false, false, false⟩
        [SrcEvent.nextA marcus]
      = [OutEvent.next ⟨marcus, demoComposite.topics, demoComposite.friends⟩] := by
  have h := (emission_after_populated_snapshot mkViewStatex
      ⟨some demoComposite.user, some demoComposite.topics, some demoComposite.friends,
       false, false, false⟩
      demoComposite.user demoComposite.topics demoComposite.friends
      marcus demoComposite.topics demoComposite.friends
      [] rfl rfl rfl).1
  exact h

/-- Whether a source event is a plain emission (rather than an error or a
completion). -/
def isNextEv : SrcEvent α β γ → Bool
  | SrcEvent.nextA _ => true
  | SrcEvent.nextB _ => true
  | SrcEvent.nextC _ => true
  | _ => false

/-- A trace consisting only of producer emissions. -/
def nextOnly : List (SrcEvent α β γ) → Bool
  | [] => true
  | e :: rest => isNextEv e && nextOnly rest

/-- The user producer has emitted at least once in the trace. -/
def hasA : List (SrcEvent α β γ) → Bool
  | [] => false
  | SrcEvent.nextA _ :: _ => true
  | _ :: rest => hasA rest

/-- The topics producer has emitted at least once in the trace. -/
def hasB : List (SrcEvent α β γ) → Bool
  | [] => false
  | SrcEvent.nextB _ :: _ => true
  | _ :: rest => hasB rest

/-- The friends producer has emitted at least once in the trace. -/
def hasC : List (SrcEvent α β γ) → Bool
  | [] => false
  | SrcEvent.nextC _ :: _ => true
  | _ :: rest => hasC rest

/-- Every producer has emitted at least once in the trace. -/
def coversAll (es : List (SrcEvent α β γ)) : Bool :=
  hasA es && hasB es && hasC es

lemma runCL_nil_of_noA (f : α → β → γ → δ) :
    ∀ (es : List (SrcEvent α β γ)) (s : CLState α β γ),
      nextOnly es = true → hasA es = false → s.la = none → runCL f s es = [] := by
  intro es
  induction es with
  | nil => intro s _ _ _; rfl
  | cons e rest ih =>
    intro s hn hA hs
    obtain ⟨la, lb, lc, da, db, dc⟩ := s
    simp only at hs
    subst hs
    rw [nextOnly, Bool.and_eq_true] at hn
    cases e with
    | nextA a => simp [hasA] at hA
    | nextB b =>
      rcases lc with _ | c <;> simp only [runCL] <;> exact ih _ hn.2 hA rfl
    | nextC c =>
      rcases lb with _ | b <;> simp only [runCL] <;> exact ih _ hn.2 hA rfl
    | err r m => simp [isNextEv] at hn
    | done r => simp [isNextEv] at hn

lemma runCL_nil_of_noB (f : α → β → γ → δ) :
    ∀ (es : List (SrcEvent α β γ)) (s : CLState α β γ),
      nextOnly es = true → hasB es = false → s.lb = none → runCL f s es = [] := by
  intro es
  induction es with
  | nil => intro s _ _ _; rfl
  | cons e rest ih =>
    intro s hn hB hs
    obtain ⟨la, lb, lc, da, db, dc⟩ := s
    simp only at hs
    subst hs
    rw [nextOnly, Bool.and_eq_true] at hn
    cases e with
    | nextA a =>
      rcases lc with _ | c <;> simp only [runCL] <;> exact ih _ hn.2 hB rfl
    | nextB b => simp [hasB] at hB
    | nextC c =>
      rcases la with _ | a <;> simp only [runCL] <;> exact ih _ hn.2 hB rfl
    | err r m => simp [isNextEv] at hn
    | done r => simp [isNextEv] at hn

lemma runCL_nil_of_noC (f : α → β → γ → δ) :
    ∀ (es : List (SrcEvent α β γ)) (s : CLState α β γ),
      nextOnly es = true → hasC es = false → s.lc = none → runCL f s es = [] := by
  intro es
  induction es with
  | nil => intro s _ _ _; rfl
  | cons e rest ih =>
    intro s hn hC hs
    obtain ⟨la, lb, lc, da, db, dc⟩ := s
    simp only at hs
    subst hs
    rw [nextOnly, Bool.and_eq_true] at hn
    cases e with
    | nextA a =>
      rcases lb with _ | b <;> simp only [runCL] <;> exact ih _ hn.2 hC rfl
    | nextB b =>
      rcases la with _ | a <;> simp only [runCL] <;> exact ih _ hn.2 hC rfl
    | nextC c => simp [hasC] at hC
    | err r m => simp [isNextEv] at hn
    | done r => simp [isNextEv] at hn

/-- Claim C1: over every interleaving of producer emissions in which some
producer has not yet emitted, the aggregation produces no output at all:
no CompositeValue, no error, no partial record. -/
theorem no_output_before_all_roles (f : α → β → γ → δ)
    (es : List (SrcEvent α β γ)) (hn : nextOnly es = true)
    (hm : hasA es = false ∨ hasB es = false ∨ hasC es = false) :
    runCL f CLState.start es = [] := by
  rcases hm with h | h | h
  · exact runCL_nil_of_noA f es CLState.start hn h rfl
  · exact runCL_nil_of_noB f es CLState.start hn h rfl
  · exact runCL_nil_of_noC f es CLState.start hn h rfl

/-- Witness for C1: the user and topics producers have emitted but the
friends producer has not, and no output is produced. -/
theorem no_output_before_all_roles_witness :
    nextOnly
        ([SrcEvent.nextA demoComposite.user, SrcEvent.nextB demoComposite.topics] :
          List (SrcEvent User (List Topic) (List User))) = true
    ∧ runCL mkViewStatex CLState.start
        [SrcEvent.nextA demoComposite.user, SrcEvent.nextB demoComposite.topics] = [] :=
  ⟨by decide,
   no_output_before_all_roles mkViewStatex
     [SrcEvent.nextA demoComposite.user, SrcEvent.nextB demoComposite.topics]
     (by decide) (Or.inr (Or.inr (by decide)))⟩

lemma runCL_append_of_nextOnly (f : α → β → γ → δ) :
    ∀ (p : List (SrcEvent α β γ)) (s : CLState α β γ) (q : List (SrcEvent α β γ)),
      nextOnly p = true →
      runCL f s (p ++ q) = runCL f s p ++ runCL f (p.foldl applyNext s) q := by
  intro p
  induction p with
  | nil => intro s q _; rfl
  | cons e rest ih =>
    intro s q hn
    rw [nextOnly, Bool.and_eq_true] at hn
    obtain ⟨la, lb, lc, da, db, dc⟩ := s
    cases e with
    | nextA a =>
      rcases lb with _ | b <;> rcases lc with _ | c <;>
        simp [runCL, List.foldl_cons, applyNext, ih, hn.2]
    | nextB b =>
      rcases la with _ | a <;> rcases lc with _ | c <;>
        simp [runCL, List.foldl_cons, applyNext, ih, hn.2]
    | nextC c =>
      rcases la with _ | a <;> rcases lb with _ | b <;>
        simp [runCL, List.foldl_cons, applyNext, ih, hn.2]
    | err r m => simp [isNextEv] at hn
    | done r => simp [isNextEv] at hn

/-- Claim C6: a fatal error from any producer is propagated to the consumer
on the composite output unmodified and terminates the aggregation; if it
occurs before all roles have emitted once, no CompositeValue is ever
emitted and the error is still surfaced. -/
theorem producer_error_propagates (f : α → β → γ → δ)
    (p : List (SrcEvent α β γ)) (r : Role) (msg : String)
    (rest : List (SrcEvent α β γ)) (hn : nextOnly p = true) :
    runCL f CLState.start (p ++ SrcEvent.err r msg :: rest)
        = runCL f CLState.start p ++ [OutEvent.error msg]
    ∧ (coversAll p = false →
        runCL f CLState.start (p ++ SrcEvent.err r msg :: rest)
          = [OutEvent.error msg]) := by
  have hmain : runCL f CLState.start (p ++ SrcEvent.err r msg :: rest)
      = runCL f CLState.start p ++ [OutEvent.error msg] := by
    rw [runCL_append_of_nextOnly f p CLState.start (SrcEvent.err r msg :: rest) hn]
    rfl
  refine ⟨hmain, fun hcov => ?_⟩
  have hnil : runCL f CLState.start p = [] := by
    rw [coversAll] at hcov
    rcases Bool.and_eq_false_iff.mp hcov with h | h
    · rcases Bool.and_eq_false_iff.mp h with h1 | h1
      · exact runCL_nil_of_noA f p CLState.start hn h1 rfl
      · exact runCL_nil_of_noB f p CLState.start hn h1 rfl
    · exact runCL_nil_of_noC f p CLState.start hn h rfl
  rw [hmain, hnil, List.nil_append]

/-- Witness for C6: the topics producer errors after only the user producer
has emitted; the error alone reaches the consumer. -/
theorem producer_error_propagates_witness :
    runCL mkViewStatex CLState.start
        ([SrcEvent.nextA demoComposite.user]
          ++ SrcEvent.err Role.topics "boom" :: [SrcEvent.nextB demoComposite.topics])
      = runCL mkViewStatex CLState.start [SrcEvent.nextA demoComposite.user]
          ++ [OutEvent.error "boom"]
    ∧ (coversAll ([SrcEvent.nextA demoComposite.user] :
          List (SrcEvent User (List Topic) (List User))) = false →
        runCL mkViewStatex CLState.start
            ([SrcEvent.nextA demoComposite.user]
              ++ SrcEvent.err Role.topics "boom" :: [SrcEvent.nextB demoComposite.topics])
          = [OutEvent.error "boom"]) :=
  producer_error_propagates mkViewStatex [SrcEvent.nextA demoComposite.user]
    Role.topics "boom" [SrcEvent.nextB demoComposite.topics] (by decide)

lemma perm_pair_cases {σ : Type} {y z b c : σ} (h : List.Perm [y, z] [b, c]) :
    (y = b ∧ z = c) ∨ (y = c ∧ z = b) := by
  have hy : y ∈ [b, c] := h.subset (by simp)
  rcases List.mem_cons.mp hy with hyb | hyc
  · refine Or.inl ⟨hyb, ?_⟩
    have h2 : List.Perm [b, z] [b, c] := by rw [hyb] at h; exact h
    simpa using List.perm_singleton.mp h2.cons_inv
  · have hyc' : y = c := by simpa using hyc
    refine Or.inr ⟨hyc', ?_⟩
    have h2 : List.Perm [c, z] [c, b] := by
      rw [hyc'] at h
      exact h.trans (List.Perm.swap c b [])
    simpa using List.perm_singleton.mp h2.cons_inv

lemma perm_triple_cases {σ : Type} {x y z a b c : σ}
    (h : List.Perm [x, y, z] [a, b, c]) :
    ([x, y, z] = [a, b, c]) ∨ ([x, y, z] = [a, c, b])
    ∨ ([x, y, z] = [b, a, c]) ∨ ([x, y, z] = [b, c, a])
    ∨ ([x, y, z] = [c, a, b]) ∨ ([x, y, z] = [c, b, a]) := by
  have hx : x ∈ [a, b, c] := h.subset (by simp)
  rcases List.mem_cons.mp hx with hxa | hx'
  · have h2 : List.Perm [y, z] [b, c] := by
      rw [hxa] at h
      exact h.cons_inv
    rcases perm_pair_cases h2 with ⟨h3, h4⟩ | ⟨h3, h4⟩
    · exact Or.inl (by rw [hxa, h3, h4])
    · exact Or.inr (Or.inl (by rw [hxa, h3, h4]))
  rcases List.mem_cons.mp hx' with hxb | hxc
  · have h2 : List.Perm [y, z] [a, c] := by
      rw [hxb] at h
      exact (h.trans (List.Perm.swap b a [c])).cons_inv
    rcases perm_pair_cases h2 with ⟨h3, h4⟩ | ⟨h3, h4⟩
    · exact Or.inr (Or.inr (Or.inl (by rw [hxb, h3, h4])))
    · exact Or.inr (Or.inr (Or.inr (Or.inl (by rw [hxb, h3, h4]))))
  · have hxc' : x = c := by simpa using hxc
    have h2 : List.Perm [y, z] [a, b] := by
      rw [hxc'] at h
      exact (h.trans ((List.Perm.cons a (List.Perm.swap c b [])).trans
        (List.Perm.swap c a [b]))).cons_inv
    rcases perm_pair_cases h2 with ⟨h3, h4⟩ | ⟨h3, h4⟩
    · exact Or.inr (Or.inr (Or.inr (Or.inr (Or.inl (by rw [hxc', h3, h4])))))
    · exact Or.inr (Or.inr (Or.inr (Or.inr (Or.inr (by rw [hxc', h3, h4])))))

/-- Claim C2: when the three demo producers each emit exactly once — in any
real emission order, i.e. over every permutation of the three demo
emissions — the aggregated stream emits exactly one CompositeValue, equal
to the demo record. -/
theorem demo_single_emission_any_order
    (es : List (SrcEvent User (List Topic) (List User)))
    (h : List.Perm es demoNexts) :
    runCL mkViewStatex CLState.start es = [OutEvent.next demoComposite] := by
  have hlen : es.length = 3 := by simpa [demoNexts] using h.length_eq
  rcases es with _ | ⟨x, es⟩
  · simp at hlen
  rcases es with _ | ⟨y, es⟩
  · simp at hlen
  rcases es with _ | ⟨z, es⟩
  · simp at hlen
  rcases es with _ | ⟨w, es⟩
  case cons => simp at hlen
  have h' : List.Perm [x, y, z]
      [SrcEvent.nextA demoComposite.user, SrcEvent.nextB demoComposite.topics,
       SrcEvent.nextC demoComposite.friends] := h
  rcases perm_triple_cases h' with h6 | h6 | h6 | h6 | h6 | h6 <;> rw [h6] <;> decide

/-- Witness for C2: the friends producer emits first, then user, then
topics; the single CompositeValue is still the demo record. -/
theorem demo_single_emission_any_order_witness :
    runCL mkViewStatex CLState.start
        [SrcEvent.nextC demoComposite.friends, SrcEvent.nextA demoComposite.user,
         SrcEvent.nextB demoComposite.topics]
      = [OutEvent.next demoComposite] :=
  demo_single_emission_any_order
    [SrcEvent.nextC demoComposite.friends, SrcEvent.nextA demoComposite.user,
     SrcEvent.nextB demoComposite.topics]
    (by decide)

/-- The last value the user producer emitted in the trace, if any. -/
def lastA : List (SrcEvent α β γ) → Option α
  | [] => none
  | SrcEvent.nextA a :: rest =>
    match lastA rest with
    | some x => some x
    | none => some a
  | _ :: rest => lastA rest

/-- The last value the topics producer emitted in the trace, if any. -/
def lastB : List (SrcEvent α β γ) → Option β
  | [] => none
  | SrcEvent.nextB b :: rest =>
    match lastB rest with
    | some x => some x
    | none => some b
  | _ :: rest => lastB rest

/-- The last value the friends producer emitted in the trace, if any. -/
def lastC : List (SrcEvent α β γ) → Option γ
  | [] => none
  | SrcEvent.nextC c :: rest =>
    match lastC rest with
    | some x => some x
    | none => some c
  | _ :: rest => lastC rest

/-- The latest user value after the trace, falling back to the value the
state already held before the trace. -/
def latestA (s : CLState α β γ) (es : List (SrcEvent α β γ)) : Option α :=
  match lastA es with
  | some a => some a
  | none => s.la

/-- The latest topics value after the trace, falling back to the state. -/
def latestB (s : CLState α β γ) (es : List (SrcEvent α β γ)) : Option β :=
  match lastB es with
  | some b => some b
  | none => s.lb

/-- The latest friends value after the trace, falling back to the state. -/
def latestC (s : CLState α β γ) (es : List (SrcEvent α β γ)) : Option γ :=
  match lastC es with
  | some c => some c
  | none => s.lc

/-- The CompositeValue carrying the latest value of every role after the
trace, if every role has one. -/
def snapshotFrom (f : α → β → γ → δ) (s : CLState α β γ)
    (es : List (SrcEvent α β γ)) : Option δ :=
  match latestA s es, latestB s es, latestC s es with
  | some a, some b, some c => some (f a b c)
  | _, _, _ => none

lemma snapshotFrom_cons (f : α → β → γ → δ) (s : CLState α β γ)
    (e : SrcEvent α β γ) (he : isNextEv e = true) (p : List (SrcEvent α β γ)) :
    snapshotFrom f s (e :: p) = snapshotFrom f (applyNext s e) p := by
  cases e with
  | nextA a =>
    unfold snapshotFrom latestA latestB latestC applyNext
    cases h : lastA p <;> simp [lastA, lastB, lastC, h]
  | nextB b =>
    unfold snapshotFrom latestA latestB latestC applyNext
    cases h : lastB p <;> simp [lastA, lastB, lastC, h]
  | nextC c =>
    unfold snapshotFrom latestA latestB latestC applyNext
    cases h : lastC p <;> simp [lastA, lastB, lastC, h]
  | err r m => simp [isNextEv] at he
  | done r => simp [isNextEv] at he

lemma runCL_eq_filterMap_snapshots (f : α → β → γ → δ) :
    ∀ (es : List (SrcEvent α β γ)) (s : CLState α β γ), nextOnly es = true →
      runCL f s es = (List.range es.length).filterMap
        (fun j => (snapshotFrom f s (es.take (j + 1))).map OutEvent.next) := by
  intro es
  induction es with
  | nil => intro s _; rfl
  | cons e rest ih =>
    intro s hn
    rw [nextOnly, Bool.and_eq_true] at hn
    have hshift : ((fun j => (snapshotFrom f s ((e :: rest).take (j + 1))).map
        (OutEvent.next (δ := δ))) ∘ Nat.succ)
        = fun j => (snapshotFrom f (applyNext s e) (rest.take (j + 1))).map OutEvent.next := by
      funext j
      simp only [Function.comp_apply, List.take_succ_cons,
        snapshotFrom_cons f s e hn.1]
    rw [List.length_cons, List.range_succ_eq_map, List.filterMap_cons, List.filterMap_map,
      hshift, ← ih (applyNext s e) hn.2]
    obtain ⟨la, lb, lc, da, db, dc⟩ := s
    cases e with
    | nextA a =>
      rcases lb with _ | b <;> rcases lc with _ | c <;>
        simp [runCL, applyNext, snapshotFrom, latestA, latestB, latestC, lastA, lastB, lastC]
    | nextB b =>
      rcases la with _ | a <;> rcases lc with _ | c <;>
        simp [runCL, applyNext, snapshotFrom, latestA, latestB, latestC, lastA, lastB, lastC]
    | nextC c =>
      rcases la with _ | a <;> rcases lb with _ | b <;>
        simp [runCL, applyNext, snapshotFrom, latestA, latestB, latestC, lastA, lastB, lastC]
    | err r m => simp [isNextEv] at hn
    | done r => simp [isNextEv] at hn

lemma lastA_isSome_eq_hasA :
    ∀ (p : List (SrcEvent α β γ)), (lastA p).isSome = hasA p := by
  intro p
  induction p with
  | nil => rfl
  | cons e rest ih =>
    cases e with
    | nextA a => cases h : lastA rest <;> simp [lastA, hasA, h]
    | nextB b => simpa [lastA, hasA] using ih
    | nextC c => simpa [lastA, hasA] using ih
    | err r m => simpa [lastA, hasA] using ih
    | done r => simpa [lastA, hasA] using ih

lemma lastB_isSome_eq_hasB :
    ∀ (p : List (SrcEvent α β γ)), (lastB p).isSome = hasB p := by
  intro p
  induction p with
  | nil => rfl
  | cons e rest ih =>
    cases e with
    | nextA a => simpa [lastB, hasB] using ih
    | nextB b => cases h : lastB rest <;> simp [lastB, hasB, h]
    | nextC c => simpa [lastB, hasB] using ih
    | err r m => simpa [lastB, hasB] using ih
    | done r => simpa [lastB, hasB] using ih

lemma lastC_isSome_eq_hasC :
    ∀ (p : List (SrcEvent α β γ)), (lastC p).isSome = hasC p := by
  intro p
  induction p with
  | nil => rfl
  | cons e rest ih =>
    cases e with
    | nextA a => simpa [lastC, hasC] using ih
    | nextB b => simpa [lastC, hasC] using ih
    | nextC c => cases h : lastC rest <;> simp [lastC, hasC, h]
    | err r m => simpa [lastC, hasC] using ih
    | done r => simpa [lastC, hasC] using ih

lemma snapshotFrom_start_isSome (f : α → β → γ → δ) (p : List (SrcEvent α β γ)) :
    (snapshotFrom f CLState.start p).isSome = coversAll p := by
  unfold snapshotFrom coversAll latestA latestB latestC CLState.start
  rw [← lastA_isSome_eq_hasA, ← lastB_isSome_eq_hasB, ← lastC_isSome_eq_hasC]
  cases lastA p <;> cases lastB p <;> cases lastC p <;> simp

lemma length_filterMap_eq_countP {σ τ : Type} (g : σ → Option τ) (l : List σ) :
    (l.filterMap g).length = l.countP (fun x => (g x).isSome) := by
  induction l with
  | nil => rfl
  | cons x l ih =>
    cases h : g x <;> simp [List.filterMap_cons, List.countP_cons, h, ih]

/-- Claim C4: over every finite sequence of producer emissions, the output
stream is exactly the in-order sequence of all-roles-latest snapshots taken
at each qualifying emission — an emission `j` qualifies when, once it is
received, every role has emitted at least once, i.e. exactly the emissions
at or after the point at which all roles first became populated (coverage
of roles grows monotonically along the trace).  Hence composite emissions
appear in the same relative order as the underlying producer emissions
(one per qualifying emission, no coalescing, no extras), and their number
equals the number of qualifying emissions. -/
theorem one_output_per_qualifying_emission (f : α → β → γ → δ)
    (es : List (SrcEvent α β γ)) (hn : nextOnly es = true) :
    runCL f CLState.start es
        = (List.range es.length).filterMap
            (fun j => (snapshotFrom f CLState.start (es.take (j + 1))).map OutEvent.next)
    ∧ (runCL f CLState.start es).length
        = (List.range es.length).countP (fun j => coversAll (es.take (j + 1))) := by
  have hmain := runCL_eq_filterMap_snapshots f es CLState.start hn
  refine ⟨hmain, ?_⟩
  rw [hmain, length_filterMap_eq_countP]
  have hfun : (fun j =>
        ((snapshotFrom f CLState.start (es.take (j + 1))).map
          (OutEvent.next (δ := δ))).isSome)
      = fun j => coversAll (es.take (j + 1)) := by
    funext j
    rw [← snapshotFrom_start_isSome f (es.take (j + 1))]
    cases snapshotFrom f CLState.start (es.take (j + 1)) <;> rfl
  rw [hfun]

/-- Witness for C4 at the demo's three emissions: the single composite is
the one snapshot at the third (the first qualifying) emission, and the
count of composites is the count of qualifying emissions. -/
theorem one_output_per_qualifying_emission_witness :
    runCL mkViewStatex CLState.start demoNexts
        = (List.range demoNexts.length).filterMap
            (fun j => (snapshotFrom mkViewStatex CLState.start
              (demoNexts.take (j + 1))).map OutEvent.next)
    ∧ (runCL mkViewStatex CLState.start demoNexts).length
        = (List.range demoNexts.length).countP
            (fun j => coversAll (demoNexts.take (j + 1))) :=
  one_output_per_qualifying_emission mkViewStatex demoNexts (by decide)

end NgIdeas
